import Mathlib

/-!
Verification of the `ranger` library: a shallow embedding of the chunked
remote-fetch engine (`remotechunk.go`, `ranger.go`) together with proofs of
its specified properties.

Bytes are modelled as `Nat`, machine `int64` offsets as `Nat` (all offsets in
the verified scenarios are non-negative), fallible operations as `Except` /
sum types, and Go runtime panics (out-of-range indexing or slicing) as an
explicit `panic` outcome.
-/

/-- Equality of `Except` values is decidable when it is on both components;
used to evaluate the embedded fallible operations on concrete inputs. -/
instance {ε α : Type} [DecidableEq ε] [DecidableEq α] : DecidableEq (Except ε α) := fun a b =>
  match a, b with
  | .ok x, .ok y =>
    decidable_of_iff (x = y) (by constructor <;> (intro h; first | rw [h] | injection h))
  | .error x, .error y =>
    decidable_of_iff (x = y) (by constructor <;> (intro h; first | rw [h] | injection h))
  | .ok _, .error _ => isFalse (by intro h; injection h)
  | .error _, .ok _ => isFalse (by intro h; injection h)

namespace Ranger

/-! ### Byte ranges and fixed-size chunk plans -/

/-- An inclusive byte range `[start, stop]` (`stop` stands for the Go field
`To`/`end`, which is a Lean keyword). -/
structure ByteRange where
  start : Nat
  stop : Nat
deriving DecidableEq, Repr

/-- Inclusive range length: `length = end - start + 1`. -/
def ByteRange.rlen (r : ByteRange) : Nat := r.stop + 1 - r.start

/-- Modelled from the spec: `planFixedChunks` / `Ranger.Ranges` (the Ranger
type itself is not part of the provided sources). Splits `[0, len-1]` into
consecutive pieces of exactly `chunkSize` bytes, the final piece truncated to
fit: chunk `i` is `[i*k, min((i+1)*k, len) - 1]`. -/
def fixedRanges (k len : Nat) : List ByteRange :=
  (List.range ((len + k - 1) / k)).map (fun i => ⟨i * k, min ((i + 1) * k) len - 1⟩)

/-! ### Chunk loading -/

/-- Outcome of `Chunk.Load()`: the fetched bytes or an error (errors are
identified by a numeric code). -/
inductive LoadOutcome where
  | ok (data : List Nat)
  | err (code : Nat)
deriving DecidableEq, Repr

def LoadOutcome.isOk : LoadOutcome → Bool
  | .ok _ => true
  | .err _ => false

/-- The data carried by a successful load (`[]` for a failed one). -/
def okData : LoadOutcome → List Nat
  | .ok d => d
  | .err _ => []

/-- A Loader returning exactly the correct bytes for each requested range of
`content` (the spec's Chunk contract: returned length equals the range
length). -/
def sliceLoad (content : List Nat) (r : ByteRange) : LoadOutcome :=
  .ok ((content.drop r.start).take r.rlen)

/-! ### `RangedSource.ReadAt` (remotechunk.go) -/

/-- Errors surfaced by a read. -/
inductive ReadErr where
  | eof
  | chunkErr (code : Nat)
deriving DecidableEq, Repr

/-- Result of a `ReadAt` call: either a Go runtime panic, or the copied bytes
together with the returned error value (`none` models a `nil` error). -/
inductive ReadRes where
  | panic
  | ok (bytes : List Nat) (e : Option ReadErr)
deriving DecidableEq, Repr

/-- The loop of `RangedSource.ReadAt`, embedded from the source:

    for n < size:
      offset := n + off
      chunkIndex := offset / chunkSize        -- rs.ranger.Index(offset)
      chunk := rs.chunks[chunkIndex]          -- panics when out of range
      chunkData, err := chunk.Load()
      if err != nil: return n, err
      chunkOffset := offset % chunkSize
      copied := copy(p[n:], chunkData[chunkOffset:])  -- panics when chunkOffset > len
      if copied == 0: return n, io.EOF
      n += copied
    return n, nil

`remaining = size - n`; the returned `bytes` are the prefix copied into `p`.
The first argument is fuel: `readAtGo` supplies `size`, and each iteration
strictly decreases `remaining`, so fuel is never exhausted with
`remaining ≠ 0` (the `fuel = 0` branch coincides with the `remaining = 0`
exit). `rs.ranger.Index` is modelled from the spec as `offset / chunkSize`
(direct index arithmetic for fixed-size chunks). -/
def readAtAux (chunks : List ByteRange) (load : ByteRange → LoadOutcome) (k : Nat) :
    Nat → Nat → Nat → ReadRes
  | 0, _, _ => .ok [] none
  | fuel + 1, remaining, off =>
    if remaining = 0 then .ok [] none
    else
      match chunks[off / k]? with
      | none => .panic
      | some chunk =>
        match load chunk with
        | .err e => .ok [] (some (.chunkErr e))
        | .ok data =>
          let co := off % k
          if co ≤ data.length then
            let copied := min remaining (data.length - co)
            if copied = 0 then .ok [] (some .eof)
            else
              match readAtAux chunks load k fuel (remaining - copied) (off + copied) with
              | .panic => .panic
              | .ok bs e => .ok ((data.drop co).take copied ++ bs) e
          else .panic

/-- The full `RangedSource.ReadAt` over an arbitrary chunk list and loader. -/
def readAtGo (chunks : List ByteRange) (load : ByteRange → LoadOutcome) (k : Nat)
    (size off : Nat) : ReadRes :=
  readAtAux chunks load k size size off

/-- ReadAt of the `RangedSource` built by `NewRangedSource` over `content`
with fixed chunk size `k` and a correct loader. -/
def rsReadAt (content : List Nat) (k : Nat) (size off : Nat) : ReadRes :=
  readAtGo (fixedRanges k content.length) (sliceLoad content) k size off

/-- ASCII bytes of a string literal, for concrete test scenarios. -/
def strBytes (s : String) : List Nat := s.toList.map Char.toNat

/-! ### `RangedSource.Reader`: the sequential view

`Reader()` returns `io.NewSectionReader(rs, 0, rs.length)`. A
`SectionReader` holds a cursor `off` and a limit; its `Read` is (Go stdlib):

    if s.off >= s.limit: return 0, EOF
    if max := s.limit - s.off; len(p) > max: p = p[0:max]
    n, err = s.r.ReadAt(p, s.off); s.off += n

`Seek(p, SeekStart)` sets `off := p`. Draining the reader (as `io.ReadAll`
does) repeats `Read` with a caller buffer of size `b`, collecting bytes,
until `EOF` (success), an error, or a panic. The first argument is fuel
bounding the number of `Read` calls; `none` models a panic, a read error, or
a drain that makes no progress within the fuel. -/
def sectionDrainAux (chunks : List ByteRange) (load : ByteRange → LoadOutcome)
    (k b : Nat) : Nat → Nat → Nat → Option (List Nat)
  | 0, off, limit => if limit ≤ off then some [] else none
  | fuel + 1, off, limit =>
    if limit ≤ off then some []
    else
      match readAtGo chunks load k (min b (limit - off)) off with
      | .panic => none
      | .ok bytes e =>
        match e with
        | some .eof => some bytes
        | some (.chunkErr _) => none
        | none =>
          (sectionDrainAux chunks load k b fuel (off + bytes.length) limit).map
            (bytes ++ ·)

/-- Seek the sequential view of the ranged source over `content` to position
`p`, then read it to completion with per-call buffers of size `b`. -/
def readerDrainFrom (content : List Nat) (k b p : Nat) : Option (List Nat) :=
  sectionDrainAux (fixedRanges k content.length) (sliceLoad content) k b
    content.length p content.length

/-! ### `RangedSource.PreloadingReader` (remotechunk.go)

The pipeline writes into an `io.Pipe`. The pipe is modelled as the sequence
of bytes successfully written (`out`), its terminal state (`closed`:
`none` while open, `some none` after a plain `Close` — the reader then sees
`EOF` — and `some (some e)` after `CloseWithError(e)`), plus instrumentation:
the total number of close calls made on the writer and the number of
*effective* closes (calls that found the pipe open). Go's `io.Pipe` keeps the
first close outcome: later closes never change what the reader observes. -/
structure PipeSt where
  out : List Nat
  closed : Option (Option Nat)
  closeCalls : Nat
  effective : Nat
deriving DecidableEq, Repr

def pipeInit : PipeSt := ⟨[], none, 0, 0⟩

/-- Write: `w.Write(data)` appends only while the pipe is open (a write after close
returns `ErrClosedPipe` and delivers nothing; the code ignores the error). -/
def pipeWrite (p : PipeSt) (d : List Nat) : PipeSt :=
  match p.closed with
  | none => { p with out := p.out ++ d }
  | some _ => p

/-- Close: `w.Close()` / `w.CloseWithError(e)` (`e = none` is the plain close); the
first close fixes the terminal state, later ones only count as calls. -/
def pipeClose (p : PipeSt) (e : Option Nat) : PipeSt :=
  match p.closed with
  | none =>
    { p with closed := some e, closeCalls := p.closeCalls + 1,
             effective := p.effective + 1 }
  | some _ => { p with closeCalls := p.closeCalls + 1 }

/-- The `conc` `stream.Stream` runs task callbacks sequentially, in
submission order. The callback of plan position `i` (source order):

    if cancelled: w.Close()
    else load; if ok: w.Write(data) else: w.CloseWithError(err); cancelled = true

`loads` gives each chunk's (deterministic) load outcome; `gObs i` is whether
the goroutine body of chunk `i` observed `cancelled = true` — an oracle
standing for the racy read of the shared flag. -/
def callbackStep (loads : List LoadOutcome) (gObs : Nat → Bool) (p : PipeSt)
    (i : Nat) : PipeSt :=
  if gObs i then pipeClose p none
  else
    match loads.getD i (.ok []) with
    | .ok d => pipeWrite p d
    | .err e => pipeClose p (some e)

/-- The dispatch loop (`for _, chunk := range rs.chunks`) checks `cancelled`
before submitting each chunk and breaks on the first `true` observation;
`dObs i` is the racy observation made just before submitting chunk `i`.
Returns the number of chunks submitted, starting from plan position `s`. -/
def dispatchCountAux (dObs : Nat → Bool) : Nat → Nat → Nat
  | _, 0 => 0
  | s, n + 1 => if dObs s then 0 else dispatchCountAux dObs (s + 1) n + 1

def dispatchCount (dObs : Nat → Bool) (len : Nat) : Nat :=
  dispatchCountAux dObs 0 len

/-- An observation oracle is realisable only if every `true` observation is
backed by an earlier plan position whose load failed: `cancelled` is set only
by the failure branch of a callback, callbacks run in submission order, and
both the dispatch check for chunk `i` and the body of goroutine `i` precede
callback `i`. -/
def obsValid (loads : List LoadOutcome) (obs : Nat → Bool) : Prop :=
  ∀ i, obs i = true → ∃ j, j < i ∧ (loads.getD j (.ok [])).isOk = false

/-- One complete run of `PreloadingReader(n)`: the dispatch loop submits a
prefix of the plan, the submitted callbacks run in order, and after
`s.Wait()` the final goroutine always calls `w.Close()`. `n` only bounds how
many goroutines are in flight at once; it constrains which observation
oracles are realisable but plays no role in the (callback-order) state
evolution, which is what the faithfulness of this model rests on. -/
def preloadRun (n : Nat) (loads : List LoadOutcome) (dObs gObs : Nat → Bool) :
    PipeSt :=
  let _ := n
  pipeClose
    ((List.range' 0 (dispatchCount dObs loads.length)).foldl
      (callbackStep loads gObs) pipeInit)
    none

/-- Concatenation of each chunk's loaded bytes in plan order. -/
def oksJoin (loads : List LoadOutcome) : List Nat := (loads.map okData).flatten

/-! ### `ChannellingReader` (the ordered stream multiplexer)

Modelled from the spec: the `ChannellingReader` implementation is not among
the provided sources (only its test is). Producers enqueue sub-streams;
enqueue order is serialized by a single admission point, so the state is the
queue of not-yet-consumed sub-streams in enqueue order plus the `finish`
flag. The constructor's capacity argument only bounds how many enqueued
sub-streams may be buffered (backpressure / blocking), which is invisible in
the delivered byte sequence and therefore not part of the state. -/
structure ChannellingReader where
  segments : List (List Nat)
  finished : Bool
deriving DecidableEq, Repr

def newChannellingReader (capacity : Nat) : ChannellingReader :=
  let _ := capacity
  ⟨[], false⟩

def ChannellingReader.send (r : ChannellingReader) (s : List Nat) :
    ChannellingReader :=
  { r with segments := r.segments ++ [s] }

def ChannellingReader.finish (r : ChannellingReader) : ChannellingReader :=
  { r with finished := true }

/-- What a single read observes on a multiplexer with nothing buffered:
`eof` after `finish()`, otherwise it blocks awaiting a producer. A read with
a sub-stream buffered delivers from that sub-stream. -/
inductive MuxRead where
  | data (bytes : List Nat)
  | eof
  | blocked
deriving DecidableEq, Repr

def ChannellingReader.readStep (r : ChannellingReader) : MuxRead :=
  match r.segments with
  | [] => if r.finished then .eof else .blocked
  | s :: _ => .data s

/-- Reading the multiplexer to completion: the consumer observes the
sub-streams fully, one at a time, in enqueue order, with byte-level
concatenation; returns the delivered bytes and the drained state. -/
def ChannellingReader.drain (r : ChannellingReader) : List Nat × ChannellingReader :=
  (r.segments.flatten, ⟨[], r.finished⟩)

/-! ### The HTTP layer (`ranger.go`): `Request`, `Do`

`ParseRange`, `Chunks` and `ByteRange.ContentRange` are not among the
provided sources; they are modelled from the spec (§4.1 RangePlanner). A
Range header is modelled at specifier granularity: either unset/empty, or a
comma-separated list of specifiers `start-` / `start-end`. -/

structure RangeSpec where
  specStart : Nat
  specEnd : Option Nat
deriving DecidableEq, Repr

inductive RangeHeader where
  | unset
  | specs (l : List RangeSpec)
deriving DecidableEq, Repr

def specsOf : RangeHeader → List RangeSpec
  | .unset => []
  | .specs l => l

inductive RangeErr where
  | invalidRange
  | multiRange
deriving DecidableEq, Repr

/-- Modelled from the spec: `ParseRange(rangeHeaderValue, totalLength)`. An
unset/empty specifier means the entire resource (zero ranges); exactly one
specifier `start-` or `start-end` resolves the end to `totalLength - 1`
(clamping a given end); `start > end` fails with `InvalidRange`; two or more
specifiers fail with `MultiRangeUnsupported`. -/
def parseRange (h : RangeHeader) (total : Nat) : Except RangeErr (List ByteRange) :=
  match h with
  | .unset => .ok []
  | .specs [] => .ok []
  | .specs [s] =>
    let e := match s.specEnd with
      | none => total - 1
      | some e => min e (total - 1)
    if e < s.specStart then .error .invalidRange else .ok [⟨s.specStart, e⟩]
  | .specs _ => .error .multiRange

/-- Modelled from the spec: `ByteRange.ContentRange(totalLength)` renders the
standard string for a resolved single range. -/
def contentRange (r : ByteRange) (total : Nat) : String :=
  "bytes " ++ toString r.start ++ "-" ++ toString r.stop ++ "/" ++ toString total

inductive Client where
  | default
  | custom (id : Nat)
deriving DecidableEq, Repr

/-- The embedded `http.Request`: only the fields `Do` branches on. -/
structure HTTPReq where
  isHead : Bool
  rangeHeader : RangeHeader
deriving DecidableEq, Repr

/-- The `ranger.Request` type: a ranged `http.Request` (the embedded pointer may be
nil, hence `Option`). -/
structure Request where
  request : Option HTTPReq
  chunkSize : Int
  workers : Int
deriving DecidableEq, Repr

/-- Outcome of the HEAD probe `c.Do(probeReq)`: a transport failure, or a
response carrying the `Accept-Ranges` header value and the parse result of
its `Content-Length` header (`none` when absent or unparsable). -/
inductive ProbeOutcome where
  | fail (code : Nat)
  | ok (acceptRanges : String) (contentLength : Option Nat)
deriving DecidableEq, Repr

inductive ReqError where
  | urlError
  | chunkSizeError
  | workersError
deriving DecidableEq, Repr

inductive DoError where
  | nilRequest
  | transport (code : Nat)
  | rangeUnsupported
  | badContentLength
  | rangeParse (e : RangeErr)
  | multiRangeDo
deriving DecidableEq, Repr

/-- The response `Do` synthesises: the client actually used, whether the
request was forwarded unranged (HEAD bypass — body and headers are then the
transport's, unconstrained here), the synthesised `ContentLength`, the
`Content-Range` header value if one was set, and the chunk plan handed to
the concurrent fetch pipeline (`[]` when no chunk fetch is dispatched). -/
structure DoResponse where
  client : Client
  bypass : Bool
  contentLength : Nat
  contentRangeHeader : Option String
  chunks : List ByteRange
deriving DecidableEq, Repr

/-- Constructor `NewRequestWithContext(ctx, method, url, body, chunkSize, workers)`:
`urlOk` abstracts whether the underlying `http.NewRequestWithContext`
succeeds (it is called first); then non-positive `chunkSize` and `workers`
are rejected, in that order, before any fetch is issued. The constructor
performs no network activity. -/
def newRequestWithContext (urlOk : Bool) (isHead : Bool) (h : RangeHeader)
    (chunkSize workers : Int) : Except ReqError Request :=
  if urlOk = false then .error .urlError
  else if chunkSize < 1 then .error .chunkSizeError
  else if workers < 1 then .error .workersError
  else .ok ⟨some ⟨isHead, h⟩, chunkSize, workers⟩

/-- Constructor `NewRequest` delegates to `NewRequestWithContext` with the background
context. -/
def newRequest (urlOk : Bool) (isHead : Bool) (h : RangeHeader)
    (chunkSize workers : Int) : Except ReqError Request :=
  newRequestWithContext urlOk isHead h chunkSize workers

/-- The function `Do(c, r)`, embedded from the source: nil checks, default-client
substitution, HEAD bypass (`headTransport` is the outcome of the forwarded
unranged call: `some e` a transport error, `none` success), probe,
`Accept-Ranges` check, `Content-Length` parse, range parse, and the
header/plan synthesis switch. In the one-range case the plan handed to the
pipeline is the single parsed sub-range. -/
def doRanger (c : Option Client) (r : Option Request) (probe : ProbeOutcome)
    (headTransport : Option Nat) : Except DoError DoResponse :=
  match r with
  | none => .error .nilRequest
  | some req =>
    match req.request with
    | none => .error .nilRequest
    | some httpReq =>
      let cl := c.getD .default
      if httpReq.isHead then
        match headTransport with
        | some e => .error (.transport e)
        | none => .ok ⟨cl, true, 0, none, []⟩
      else
        match probe with
        | .fail e => .error (.transport e)
        | .ok ar clHeader =>
          if ar ≠ "bytes" then .error .rangeUnsupported
          else
            match clHeader with
            | none => .error .badContentLength
            | some total =>
              match parseRange httpReq.rangeHeader total with
              | .error e => .error (.rangeParse e)
              | .ok ranges =>
                match ranges with
                | [] =>
                  .ok ⟨cl, false, total, none, fixedRanges req.chunkSize.toNat total⟩
                | [r0] =>
                  .ok ⟨cl, false, r0.rlen, some (contentRange r0 total), [r0]⟩
                | _ => .error .multiRangeDo

/-! ### Helper lemmas for the pipeline proofs -/

lemma map_getD_range' {α : Type} (d : α) :
    ∀ (n s : Nat) (L : List α), s + n ≤ L.length →
      (List.range' s n).map (fun i => L.getD i d) = (L.drop s).take n := by
  intro n
  induction n with
  | zero => intro s L _; simp
  | succ n ih =>
    intro s L h
    have hs : s < L.length := by omega
    rw [List.range'_succ, List.map_cons, List.getD_eq_getElem L d hs,
      List.drop_eq_getElem_cons hs, List.take_succ_cons, ih (s + 1) L (by omega)]

lemma foldl_callbacks_ok (loads : List LoadOutcome) (gObs : Nat → Bool) :
    ∀ (n s : Nat) (p : PipeSt), p.closed = none →
      (∀ i, s ≤ i → i < s + n → gObs i = false ∧ (loads.getD i (.ok [])).isOk = true) →
      (List.range' s n).foldl (callbackStep loads gObs) p =
        { p with out :=
            p.out ++ ((List.range' s n).map (fun i => okData (loads.getD i (.ok [])))).flatten } := by
  intro n
  induction n with
  | zero => intro s p hp _; simp
  | succ n ih =>
    intro s p hp hgood
    obtain ⟨hg, hok⟩ := hgood s (le_refl s) (by omega)
    rw [List.range'_succ, List.foldl_cons, List.map_cons, List.flatten_cons]
    cases hL : loads.getD s (.ok []) with
    | err e => rw [hL] at hok; simp [LoadOutcome.isOk] at hok
    | ok d =>
      have hstep : callbackStep loads gObs p s = { p with out := p.out ++ d } := by
        unfold callbackStep
        rw [hg, if_neg Bool.false_ne_true, hL]
        show pipeWrite p d = _
        unfold pipeWrite
        rw [hp]
      rw [hstep, ih (s + 1) { p with out := p.out ++ d } hp
        (fun i h1 h2 => hgood i (by omega) (by omega))]
      simp [hL, okData, List.append_assoc]

lemma foldl_callbacks_closed (loads : List LoadOutcome) (gObs : Nat → Bool) :
    ∀ (l : List Nat) (p : PipeSt) (t : Option Nat), p.closed = some t →
      ((l.foldl (callbackStep loads gObs) p).out = p.out ∧
        (l.foldl (callbackStep loads gObs) p).closed = some t) := by
  intro l
  induction l with
  | nil => intro p t hp; simpa using hp
  | cons a l ih =>
    intro p t hp
    have hstep : (callbackStep loads gObs p a).out = p.out ∧
        (callbackStep loads gObs p a).closed = some t := by
      unfold callbackStep
      split
      · simp [pipeClose, hp]
      · cases loads.getD a (.ok []) <;> simp [pipeWrite, pipeClose, hp]
    rw [List.foldl_cons]
    obtain ⟨h1, h2⟩ := ih (callbackStep loads gObs p a) t hstep.2
    exact ⟨h1.trans hstep.1, h2⟩

def pipeInv (p : PipeSt) : Prop := p.effective = if p.closed = none then 0 else 1

lemma callbackStep_inv (loads : List LoadOutcome) (gObs : Nat → Bool) (i : Nat)
    {p : PipeSt} (h : pipeInv p) : pipeInv (callbackStep loads gObs p i) := by
  unfold pipeInv at *
  unfold callbackStep
  split
  · cases hc : p.closed <;> simp [pipeClose, hc] <;> simp [hc] at h <;> omega
  · cases loads.getD i (.ok []) with
    | ok d => cases hc : p.closed <;> simp [pipeWrite, hc] <;> simp [hc] at h <;> omega
    | err e => cases hc : p.closed <;> simp [pipeClose, hc] <;> simp [hc] at h <;> omega

lemma foldl_callbacks_inv (loads : List LoadOutcome) (gObs : Nat → Bool) :
    ∀ (l : List Nat) (p : PipeSt), pipeInv p →
      pipeInv (l.foldl (callbackStep loads gObs) p) := by
  intro l
  induction l with
  | nil => intro p h; simpa using h
  | cons a l ih => intro p h; exact ih _ (callbackStep_inv loads gObs a h)

lemma dispatchCountAux_all_false (dObs : Nat → Bool) :
    ∀ (n s : Nat), (∀ i, s ≤ i → i < s + n → dObs i = false) →
      dispatchCountAux dObs s n = n := by
  intro n
  induction n with
  | zero => intro s _; rfl
  | succ n ih =>
    intro s h
    have hs : dObs s = false := h s (le_refl s) (by omega)
    unfold dispatchCountAux
    rw [hs]
    simp [ih (s + 1) (fun i h1 h2 => h i (by omega) (by omega))]

lemma dispatchCountAux_ge (dObs : Nat → Bool) :
    ∀ (n s m : Nat), m ≤ n → (∀ i, s ≤ i → i < s + m → dObs i = false) →
      m ≤ dispatchCountAux dObs s n := by
  intro n
  induction n with
  | zero => intro s m h _; omega
  | succ n ih =>
    intro s m hm h
    cases m with
    | zero => omega
    | succ m =>
      have hs : dObs s = false := h s (le_refl s) (by omega)
      unfold dispatchCountAux
      rw [hs]
      simp only [Bool.false_eq_true, if_false]
      have := ih (s + 1) m (by omega) (fun i h1 h2 => h i (by omega) (by omega))
      omega

lemma dispatchCountAux_le_len (dObs : Nat → Bool) :
    ∀ (n s : Nat), dispatchCountAux dObs s n ≤ n := by
  intro n
  induction n with
  | zero => intro s; simp [dispatchCountAux]
  | succ n ih =>
    intro s
    unfold dispatchCountAux
    split
    · omega
    · have := ih (s + 1); omega

lemma dispatchCountAux_le (dObs : Nat → Bool) :
    ∀ (n s j : Nat), dObs (s + j) = true → dispatchCountAux dObs s n ≤ j := by
  intro n
  induction n with
  | zero => intro s j _; simp [dispatchCountAux]
  | succ n ih =>
    intro s j hj
    unfold dispatchCountAux
    split
    · omega
    · cases j with
      | zero =>
        simp only [Nat.add_zero] at hj
        simp_all
      | succ j =>
        have := ih (s + 1) j (by rw [show s + 1 + j = s + (j + 1) by omega]; exact hj)
        omega


lemma pipeClose_out (p : PipeSt) (e : Option Nat) : (pipeClose p e).out = p.out := by
  cases hc : p.closed <;> simp [pipeClose, hc]

lemma pipeClose_closed_of_closed (p : PipeSt) (e : Option Nat) (t : Option Nat)
    (h : p.closed = some t) : (pipeClose p e).closed = some t := by
  simp [pipeClose, h]

/-- C1: for every chunk plan whose chunks all load successfully and every
worker limit `n ≥ 1`, the stream delivered by `PreloadingReader(n)` is
exactly the concatenation of each chunk's loaded bytes in plan order,
followed by a clean `EOF`, and the delivered state is identical for every
choice of `n`. -/
theorem preloading_reader_order_independent (n : Nat) (loads : List LoadOutcome)
    (dObs gObs : Nat → Bool) (_hn : 1 ≤ n)
    (hok : ∀ l ∈ loads, l.isOk = true)
    (hd : obsValid loads dObs) (hg : obsValid loads gObs) :
    (preloadRun n loads dObs gObs).out = oksJoin loads ∧
    (preloadRun n loads dObs gObs).closed = some none ∧
    ∀ m, 1 ≤ m → preloadRun m loads dObs gObs = preloadRun n loads dObs gObs := by
  have hgetD : ∀ i, (loads.getD i (.ok [])).isOk = true := by
    intro i
    by_cases hi : i < loads.length
    · rw [List.getD_eq_getElem _ _ hi]
      exact hok _ (List.getElem_mem hi)
    · rw [List.getD_eq_default _ _ (by omega)]
      rfl
  have hobs : ∀ (obs : Nat → Bool), obsValid loads obs → ∀ i, obs i = false := by
    intro obs hv i
    cases hoi : obs i with
    | false => rfl
    | true =>
      obtain ⟨j, _, hbad⟩ := hv i hoi
      rw [hgetD j] at hbad
      cases hbad
  have hD : dispatchCount dObs loads.length = loads.length :=
    dispatchCountAux_all_false dObs loads.length 0 (fun i _ _ => hobs dObs hd i)
  have hfold := foldl_callbacks_ok loads gObs loads.length 0 pipeInit rfl
    (fun i _ _ => ⟨hobs gObs hg i, hgetD i⟩)
  have hmap : (List.range' 0 loads.length).map
      (fun i => okData (loads.getD i (.ok []))) = loads.map okData := by
    have h1 : (fun i => okData (loads.getD i (.ok []))) =
        okData ∘ (fun i => loads.getD i (.ok [])) := rfl
    rw [h1, ← List.map_map, map_getD_range' (.ok []) loads.length 0 loads (by omega)]
    simp
  rw [hmap] at hfold
  have hrun : preloadRun n loads dObs gObs =
      { out := oksJoin loads, closed := some none, closeCalls := 1, effective := 1 } := by
    unfold preloadRun dispatchCount at *
    rw [hD, hfold]
    simp [pipeClose, pipeInit, oksJoin]
  refine ⟨by rw [hrun], by rw [hrun], fun m _ => rfl⟩

/-- Closed witness for `preloading_reader_order_independent`: a two-chunk
plan whose loads both succeed, run at `n = 1` with the all-false observation
oracles. -/
theorem preloading_reader_order_independent_witness :
    (preloadRun 1 [.ok [1, 2], .ok [3]] (fun _ => false) (fun _ => false)).out =
      oksJoin [.ok [1, 2], .ok [3]] ∧
    (preloadRun 1 [.ok [1, 2], .ok [3]] (fun _ => false) (fun _ => false)).closed =
      some none ∧
    ∀ m, 1 ≤ m → preloadRun m [.ok [1, 2], .ok [3]] (fun _ => false) (fun _ => false) =
      preloadRun 1 [.ok [1, 2], .ok [3]] (fun _ => false) (fun _ => false) :=
  preloading_reader_order_independent 1 [.ok [1, 2], .ok [3]] (fun _ => false)
    (fun _ => false) (by decide) (by decide)
    (fun i h => absurd h (by simp)) (fun i h => absurd h (by simp))

/-- C2: if the chunk at plan position `k` is the first whose load fails, the
reader delivers exactly the concatenation of chunks `0..k-1` and then that
chunk's error; no byte from position `k` onward is delivered, and once the
dispatch loop observes the failure no further chunk is dispatched. -/
theorem preloading_reader_failfast (n : Nat) (loads : List LoadOutcome)
    (dObs gObs : Nat → Bool) (k e : Nat) (_hn : 1 ≤ n)
    (hk : loads[k]? = some (.err e))
    (hpre : ∀ j, j < k → (loads.getD j (.ok [])).isOk = true)
    (hd : obsValid loads dObs) (hg : obsValid loads gObs) :
    (preloadRun n loads dObs gObs).out = oksJoin (loads.take k) ∧
    (preloadRun n loads dObs gObs).closed = some (some e) ∧
    ∀ i, dObs i = true → dispatchCount dObs loads.length ≤ i := by
  obtain ⟨hklen, hkget⟩ := List.getElem?_eq_some_iff.mp hk
  have hobs : ∀ (obs : Nat → Bool), obsValid loads obs → ∀ i, i ≤ k → obs i = false := by
    intro obs hv i hik
    cases hoi : obs i with
    | false => rfl
    | true =>
      obtain ⟨j, hji, hbad⟩ := hv i hoi
      rw [hpre j (by omega)] at hbad
      cases hbad
  have hD1 : k + 1 ≤ dispatchCount dObs loads.length :=
    dispatchCountAux_ge dObs loads.length 0 (k + 1) (by omega)
      (fun i _ h2 => hobs dObs hd i (by omega))
  have hD2 : dispatchCount dObs loads.length ≤ loads.length :=
    dispatchCountAux_le_len dObs loads.length 0
  set D := dispatchCount dObs loads.length with hDdef
  have hsplit : List.range' 0 D = (List.range' 0 k ++ [k]) ++ List.range' (k + 1) (D - (k + 1)) := by
    have h1 : List.range' 0 k ++ List.range' (0 + 1 * k) 1 1 = List.range' 0 (1 + k) :=
      List.range'_append 0 k 1 1
    have h2 : List.range' 0 (k + 1) ++ List.range' (0 + 1 * (k + 1)) (D - (k + 1)) 1 =
        List.range' 0 (D - (k + 1) + (k + 1)) := List.range'_append 0 (k + 1) (D - (k + 1)) 1
    simp only [Nat.zero_add, Nat.one_mul] at h1 h2
    rw [List.range'_one] at h1
    rw [Nat.add_comm 1 k] at h1
    rw [show D - (k + 1) + (k + 1) = D from by omega] at h2
    rw [← h2, ← h1]
  have hfold1 := foldl_callbacks_ok loads gObs k 0 pipeInit rfl
    (fun i _ h2 => ⟨hobs gObs hg i (by omega), hpre i (by omega)⟩)
  have hmap : (List.range' 0 k).map (fun i => okData (loads.getD i (.ok []))) =
      (loads.take k).map okData := by
    have h1 : (fun i => okData (loads.getD i (.ok []))) =
        okData ∘ (fun i => loads.getD i (.ok [])) := rfl
    rw [h1, ← List.map_map, map_getD_range' (.ok []) k 0 loads (by omega)]
    simp
  rw [hmap] at hfold1
  simp only [pipeInit, List.nil_append] at hfold1
  have hgetDk : loads.getD k (.ok []) = .err e := by
    rw [List.getD_eq_getElem _ _ hklen, hkget]
  have hstepk : callbackStep loads gObs
      { out := ((loads.take k).map okData).flatten, closed := none,
        closeCalls := 0, effective := 0 } k =
      { out := ((loads.take k).map okData).flatten, closed := some (some e),
        closeCalls := 1, effective := 1 } := by
    unfold callbackStep
    rw [hobs gObs hg k (le_refl k), if_neg Bool.false_ne_true, hgetDk]
    show pipeClose _ (some e) = _
    simp [pipeClose]
  have hfold2 := foldl_callbacks_closed loads gObs (List.range' (k + 1) (D - (k + 1)))
    { out := ((loads.take k).map okData).flatten, closed := some (some e),
      closeCalls := 1, effective := 1 } (some e) rfl
  have hrun1 : (List.range' 0 D).foldl (callbackStep loads gObs) pipeInit =
      (List.range' (k + 1) (D - (k + 1))).foldl (callbackStep loads gObs)
        { out := ((loads.take k).map okData).flatten, closed := some (some e),
          closeCalls := 1, effective := 1 } := by
    rw [hsplit, List.foldl_append, List.foldl_append]
    unfold pipeInit
    rw [hfold1]
    simp only [List.foldl_cons, List.foldl_nil]
    rw [hstepk]
  refine ⟨?_, ?_, fun i hi => dispatchCountAux_le dObs loads.length 0 i (by simpa using hi)⟩
  · unfold preloadRun
    rw [← hDdef, hrun1, pipeClose_out, hfold2.1]
    rfl
  · unfold preloadRun
    rw [← hDdef, hrun1]
    exact pipeClose_closed_of_closed _ none (some e) hfold2.2


/-- Closed witness for `preloading_reader_failfast`: a three-chunk plan whose
second chunk fails delivers only the first chunk's bytes and then the error. -/
theorem preloading_reader_failfast_witness :
    (preloadRun 1 [.ok [5], .err 9, .ok [4]] (fun _ => false) (fun _ => false)).out =
      oksJoin ([.ok [5], .err 9, .ok [4]].take 1) ∧
    (preloadRun 1 [.ok [5], .err 9, .ok [4]] (fun _ => false) (fun _ => false)).closed =
      some (some 9) ∧
    ∀ i, (fun _ => false) i = true →
      dispatchCount (fun _ => false) ([LoadOutcome.ok [5], .err 9, .ok [4]].length) ≤ i :=
  preloading_reader_failfast 1 [.ok [5], .err 9, .ok [4]] (fun _ => false) (fun _ => false)
    1 9 (by decide) (by decide) (by decide)
    (fun i h => absurd h (by simp)) (fun i h => absurd h (by simp))

/-- C3 (amended): every run of the preloading pipeline makes at least one
close call on its sink and exactly one of them takes effect (the pipe's
terminal state is decided exactly once); failing runs make further close
calls that are no-ops. -/
theorem preloading_single_effective_close (n : Nat) (loads : List LoadOutcome)
    (dObs gObs : Nat → Bool) :
    (preloadRun n loads dObs gObs).effective = 1 ∧
    1 ≤ (preloadRun n loads dObs gObs).closeCalls := by
  have hinv := foldl_callbacks_inv loads gObs
    (List.range' 0 (dispatchCount dObs loads.length)) pipeInit (by simp [pipeInv, pipeInit])
  unfold preloadRun
  set q := (List.range' 0 (dispatchCount dObs loads.length)).foldl
    (callbackStep loads gObs) pipeInit with hq
  unfold pipeInv at hinv
  constructor
  · cases hc : q.closed <;> simp [pipeClose, hc] <;> simp [hc] at hinv <;> omega
  · cases hc : q.closed <;> simp [pipeClose, hc]

/-- C3 counterexample: a one-chunk plan whose load fails. The failing
callback calls `CloseWithError` and the final goroutine after `s.Wait()`
calls `Close` — two close calls on the sink in one run, not one. -/
theorem preloading_close_calls_cex :
    (preloadRun 1 [.err 7] (fun _ => false) (fun _ => false)).closeCalls = 2 := by
  decide

/-! ### ReadAt correctness and the view-agreement proofs -/


lemma fixedRanges_getElem (k len i : Nat) (hi : i < (len + k - 1) / k) :
    (fixedRanges k len)[i]? = some ⟨i * k, min ((i + 1) * k) len - 1⟩ := by
  unfold fixedRanges
  rw [List.getElem?_map, List.getElem?_range hi]
  rfl

lemma idx_lt_numChunks (k len off : Nat) (hk : 1 ≤ k) (hoff : off < len) :
    off / k < (len + k - 1) / k := by
  have h1 : off / k ≤ (len - 1) / k := Nat.div_le_div_right (by omega)
  have h2 : len + k - 1 = (len - 1) + k := by omega
  rw [h2, Nat.add_div_right _ (by omega)]
  omega

lemma readAtAux_correct (c : List Nat) (k : Nat) (hk : 1 ≤ k) :
    ∀ (fuel remaining off : Nat), remaining ≤ fuel → off + remaining ≤ c.length →
      readAtAux (fixedRanges k c.length) (sliceLoad c) k fuel remaining off =
        .ok ((c.drop off).take remaining) none := by
  intro fuel
  induction fuel with
  | zero =>
    intro remaining off h1 _
    have h0 : remaining = 0 := by omega
    subst h0
    simp [readAtAux]
  | succ fuel ih =>
    intro remaining off h1 h2
    by_cases h0 : remaining = 0
    · subst h0
      simp [readAtAux]
    · have hoff : off < c.length := by omega
      have hidx := idx_lt_numChunks k c.length off hk hoff
      have hch := fixedRanges_getElem k c.length (off / k) hidx
      have hmul : k * (off / k) = off / k * k := Nat.mul_comm _ _
      have hdam := Nat.div_add_mod off k
      have hmodlt : off % k < k := Nat.mod_lt _ (by omega)
      have haddmul : (off / k + 1) * k = off / k * k + k := by
        rw [Nat.add_mul, Nat.one_mul]
      set st := off / k * k with hst_def
      set dl := min ((off / k + 1) * k) c.length with hdl_def
      have hst : st ≤ off := by omega
      have hco : off % k = off - st := by omega
      have hoffdl : off < dl := by omega
      have hdl_le : dl ≤ c.length := by omega
      have hrlen : ByteRange.rlen ⟨st, dl - 1⟩ = dl - st := by
        show dl - 1 + 1 - st = dl - st
        omega
      have hdata_len : ((c.drop st).take (dl - st)).length = dl - st := by
        rw [List.length_take, List.length_drop]
        omega
      simp only [readAtAux, if_neg h0, hch, sliceLoad, hrlen]
      rw [hdata_len, hco]
      have hsub : dl - st - (off - st) = dl - off := by omega
      rw [hsub]
      rw [if_pos (by omega : off - st ≤ dl - st)]
      rw [if_neg (by omega : ¬remaining ⊓ (dl - off) = 0)]
      have hcple : remaining ⊓ (dl - off) ≤ remaining := Nat.min_le_left _ _
      have hcpdl : remaining ⊓ (dl - off) ≤ dl - off := Nat.min_le_right _ _
      have hcp1 : 1 ≤ remaining ⊓ (dl - off) := by omega
      rw [ih (remaining - remaining ⊓ (dl - off)) (off + remaining ⊓ (dl - off))
        (by omega) (by omega)]
      have hbytes : List.take (remaining ⊓ (dl - off))
          (List.drop (off - st) (List.take (dl - st) (List.drop st c))) =
          List.take (remaining ⊓ (dl - off)) (List.drop off c) := by
        rw [List.drop_take, hsub, List.drop_drop, List.take_take]
        rw [show st + (off - st) = off from by omega]
        rw [Nat.min_eq_left hcpdl]
      rw [hbytes]
      show ReadRes.ok _ none = _
      rw [← List.drop_drop, ← List.take_add]
      rw [show remaining ⊓ (dl - off) + (remaining - remaining ⊓ (dl - off)) = remaining
        from by omega]


lemma readAtGo_correct (c : List Nat) (k : Nat) (hk : 1 ≤ k) (size off : Nat)
    (h : off + size ≤ c.length) :
    readAtGo (fixedRanges k c.length) (sliceLoad c) k size off =
      .ok ((c.drop off).take size) none :=
  readAtAux_correct c k hk size size off (le_refl _) h

lemma sectionDrainAux_correct (c : List Nat) (k b : Nat) (hk : 1 ≤ k) (hb : 1 ≤ b) :
    ∀ (fuel off : Nat), off ≤ c.length → c.length - off ≤ fuel →
      sectionDrainAux (fixedRanges k c.length) (sliceLoad c) k b fuel off c.length =
        some (c.drop off) := by
  intro fuel
  induction fuel with
  | zero =>
    intro off h1 h2
    have h3 : off = c.length := by omega
    subst h3
    simp [sectionDrainAux, List.drop_length]
  | succ fuel ih =>
    intro off h1 h2
    by_cases hoff : c.length ≤ off
    · have h3 : off = c.length := by omega
      subst h3
      simp [sectionDrainAux, List.drop_length]
    · have hofflt : off < c.length := by omega
      have hread := readAtGo_correct c k hk (min b (c.length - off)) off (by omega)
      simp only [sectionDrainAux, if_neg hoff]
      rw [hread]
      have hblen : (List.take (min b (c.length - off)) (List.drop off c)).length =
          min b (c.length - off) := by
        rw [List.length_take, List.length_drop]
        omega
      show (sectionDrainAux (fixedRanges k c.length) (sliceLoad c) k b fuel
        (off + (List.take (min b (c.length - off)) (List.drop off c)).length)
        c.length).map _ = _
      rw [hblen, ih (off + min b (c.length - off)) (by omega) (by omega)]
      simp only [Option.map_some']
      rw [← List.drop_drop, List.take_append_drop]

/-- C9: with a deterministic, correct Loader, the sequential view returned by
`Reader()` and the random-access view `ReadAt` agree: draining the sequential
view from any position `p ≤ length` (with any per-call buffer size `b ≥ 1`)
yields exactly the bytes `ReadAt` yields at offset `p` with a buffer covering
the rest of the resource — namely the resource's suffix from `p` — and the
sequential view exposes exactly `length` bytes in total. -/
theorem reader_readAt_agree (content : List Nat) (k b p : Nat) (hk : 1 ≤ k)
    (hb : 1 ≤ b) (hp : p ≤ content.length) :
    readerDrainFrom content k b p = some (content.drop p) ∧
    rsReadAt content k (content.length - p) p = .ok (content.drop p) none ∧
    readerDrainFrom content k b 0 = some content := by
  refine ⟨?_, ?_, ?_⟩
  · exact sectionDrainAux_correct content k b hk hb content.length p hp (by omega)
  · have h := readAtGo_correct content k hk (content.length - p) p (by omega)
    rw [rsReadAt, h]
    have h2 : content.length - p = (content.drop p).length := by
      rw [List.length_drop]
    rw [h2, List.take_length]
  · have h := sectionDrainAux_correct content k b hk hb content.length 0 (by omega) (by omega)
    rw [readerDrainFrom, h, List.drop_zero]

/-- Closed witness for `reader_readAt_agree`: the 10-byte resource
`"abcdefghij"` with chunk size 5, buffer size 4, position 3. -/
theorem reader_readAt_agree_witness :
    readerDrainFrom (strBytes "abcdefghij") 5 4 3 =
      some ((strBytes "abcdefghij").drop 3) ∧
    rsReadAt (strBytes "abcdefghij") 5 ((strBytes "abcdefghij").length - 3) 3 =
      .ok ((strBytes "abcdefghij").drop 3) none ∧
    readerDrainFrom (strBytes "abcdefghij") 5 4 0 = some (strBytes "abcdefghij") :=
  reader_readAt_agree (strBytes "abcdefghij") 5 4 3 (by decide) (by decide) (by decide)

/-- C4: evaluation of `ReadAt` on the spec's own scenarios — the 10-byte
resource `"abcdefghij"` in chunks of 5 and the zero-length resource. A
3-byte read at offset 3 yields `"def"` as claimed, but a 4-byte read at
offset 8 panics: after copying `"ij"` the loop computes chunk index
`10 / 5 = 2` and indexes past the two-chunk plan instead of signalling
`EOF`. On a zero-length resource (an empty plan) any read with a non-empty
buffer panics at chunk index 0, and a read with an empty buffer returns a
`nil` error — never `EOF`. -/
theorem readAt_boundary_eval :
    rsReadAt (strBytes "abcdefghij") 5 3 3 = .ok (strBytes "def") none ∧
    rsReadAt (strBytes "abcdefghij") 5 4 8 = .panic ∧
    rsReadAt ([] : List Nat) 5 1 0 = .panic ∧
    rsReadAt ([] : List Nat) 5 0 0 = .ok [] none := by
  decide

/-- C8: enqueuing the sub-streams `"one"`, `"two"`, `"three"` in that order
and reading the multiplexer to completion yields exactly `"onetwothree"`
with no delimiters (producer timing is invisible: enqueue order alone fixes
the output), and once `finish()` is signalled and the buffer drained a
further read observes `EOF`, not an error. -/
theorem channelling_reader_concat :
    ((((newChannellingReader 0).send (strBytes "one")).send (strBytes "two")).send
        (strBytes "three")).finish.drain.1 = strBytes "onetwothree" ∧
    ((((newChannellingReader 0).send (strBytes "one")).send (strBytes "two")).send
        (strBytes "three")).finish.drain.2.readStep = .eof := by
  decide

end Ranger

namespace Ranger

def hasBackwardSpec (h : RangeHeader) : Prop :=
  ∃ s ∈ specsOf h, ∃ e, s.specEnd = some e ∧ e < s.specStart

lemma parseRange_single (s : RangeSpec) (total : Nat) :
    parseRange (.specs [s]) total =
      if (match s.specEnd with | none => total - 1 | some e => min e (total - 1)) <
          s.specStart then
        .error .invalidRange
      else
        .ok [⟨s.specStart,
          match s.specEnd with | none => total - 1 | some e => min e (total - 1)⟩] := rfl

/-- C7: for every `chunkSize < 1` and every `workers < 1`, constructing a
ranged request (`NewRequestWithContext` / `NewRequest`) fails synchronously
with an error — before any fetch is issued, since the constructor performs
none — and a successfully constructed request stores both values unmodified,
so neither is silently clamped to a valid one. -/
theorem newRequest_validates_config (urlOk isHead : Bool) (h : RangeHeader)
    (cs w : Int) :
    ((cs < 1 ∨ w < 1) →
      (∃ e, newRequestWithContext urlOk isHead h cs w = .error e) ∧
      (∃ e, newRequest urlOk isHead h cs w = .error e)) ∧
    (∀ req, newRequestWithContext urlOk isHead h cs w = .ok req →
      req.chunkSize = cs ∧ req.workers = w) := by
  constructor
  · intro hbad
    constructor
    · unfold newRequestWithContext
      split_ifs with h1 h2 h3
      · exact ⟨_, rfl⟩
      · exact ⟨_, rfl⟩
      · exact ⟨_, rfl⟩
      · omega
    · unfold newRequest newRequestWithContext
      split_ifs with h1 h2 h3
      · exact ⟨_, rfl⟩
      · exact ⟨_, rfl⟩
      · exact ⟨_, rfl⟩
      · omega
  · intro req hreq
    unfold newRequestWithContext at hreq
    split_ifs at hreq
    all_goals
      first
      | (injection hreq with h4; subst h4; exact ⟨rfl, rfl⟩)
      | (exfalso; exact Except.noConfusion hreq)

/-- Closed witness for `newRequest_validates_config`: chunk size 0 with 100
workers is rejected by both constructors. -/
theorem newRequest_validates_config_witness :
    (∃ e, newRequestWithContext true false .unset 0 100 = .error e) ∧
    (∃ e, newRequest true false .unset 0 100 = .error e) :=
  (newRequest_validates_config true false .unset 0 100).1 (Or.inl (by decide))

/-- C10: calling `Do` with a nil `Request`, or with a `Request` whose
embedded `http.Request` is nil, returns an error — without panicking (the
model is a total function; the nil checks precede every dereference) and
without issuing any network call (the error is the same for every probe
outcome) — and calling `Do` with a nil `http.Client` substitutes
`http.DefaultClient` on every path that performs a call. -/
theorem do_nil_safety :
    (∀ (c : Option Client) (probe : ProbeOutcome) (ht : Option Nat),
      doRanger c none probe ht = .error .nilRequest) ∧
    (∀ (c : Option Client) (cs w : Int) (probe : ProbeOutcome) (ht : Option Nat),
      doRanger c (some ⟨none, cs, w⟩) probe ht = .error .nilRequest) ∧
    (∀ (r : Request) (probe : ProbeOutcome) (ht : Option Nat) (resp : DoResponse),
      doRanger none (some r) probe ht = .ok resp → resp.client = .default) := by
  refine ⟨fun c probe ht => rfl, fun c cs w probe ht => rfl, ?_⟩
  intro r probe ht resp hok
  obtain ⟨req, cs, w⟩ := r
  cases req with
  | none => simp [doRanger] at hok
  | some httpReq =>
    obtain ⟨ihd, rh⟩ := httpReq
    cases ihd with
    | true =>
      cases ht with
      | some e => simp [doRanger] at hok
      | none =>
        simp [doRanger] at hok
        subst hok
        rfl
    | false =>
      cases probe with
      | fail e => simp [doRanger] at hok
      | ok ar clh =>
        by_cases har : ar = "bytes"
        · subst har
          cases clh with
          | none => simp [doRanger] at hok
          | some total =>
            cases hp : parseRange rh total with
            | error e => simp [doRanger, hp] at hok
            | ok ranges =>
              match ranges with
              | [] =>
                simp [doRanger, hp] at hok
                subst hok
                rfl
              | [r0] =>
                simp [doRanger, hp] at hok
                subst hok
                rfl
              | r0 :: r1 :: rest => simp [doRanger, hp] at hok
        · simp [doRanger, har] at hok

/-- C5: when a sub-range was requested (the parsed range list is a
singleton), the response produced by `Do` carries a `Content-Range` header
`bytes start-end/total` and a `ContentLength` equal to the sub-range length;
when no sub-range was requested (the parsed list is empty), `ContentLength`
equals the full resource length and no `Content-Range` header is set. -/
theorem do_subrange_headers (c : Option Client) (hreq : HTTPReq) (cs w : Int)
    (total : Nat) (ht : Option Nat) (hhead : hreq.isHead = false) :
    (parseRange hreq.rangeHeader total = .ok [] →
      doRanger c (some ⟨some hreq, cs, w⟩) (.ok "bytes" (some total)) ht =
        .ok ⟨c.getD .default, false, total, none, fixedRanges cs.toNat total⟩) ∧
    (∀ r0, parseRange hreq.rangeHeader total = .ok [r0] →
      doRanger c (some ⟨some hreq, cs, w⟩) (.ok "bytes" (some total)) ht =
        .ok ⟨c.getD .default, false, r0.rlen, some (contentRange r0 total), [r0]⟩) := by
  constructor
  · intro hp
    simp [doRanger, hhead, hp]
  · intro r0 hp
    simp [doRanger, hhead, hp]

/-- Closed witness for `do_subrange_headers`: requesting `bytes=42-`
against a 10240-byte resource yields `ContentLength` 10198 and
`Content-Range` `bytes 42-10239/10240`. -/
theorem do_subrange_headers_witness :
    doRanger none (some ⟨some ⟨false, .specs [⟨42, none⟩]⟩, 1024, 100⟩)
        (.ok "bytes" (some 10240)) none =
      .ok ⟨.default, false, 10198, some "bytes 42-10239/10240", [⟨42, 10239⟩]⟩ := by
  have h := (do_subrange_headers none ⟨false, .specs [⟨42, none⟩]⟩ 1024 100 10240 none
    rfl).2 ⟨42, 10239⟩ (by decide)
  rw [h]
  decide

/-- C6 counterexample: a HEAD request carrying the multi-range header
`bytes=100-200,300-400` is forwarded unranged by `Do`'s method bypass and
succeeds — `Do` does not return an error for it, contrary to the claim's
unrestricted quantification over requests. -/
theorem do_head_bypass_cex :
    doRanger none
        (some ⟨some ⟨true, .specs [⟨100, some 200⟩, ⟨300, some 400⟩]⟩, 1024, 100⟩)
        (.ok "bytes" (some 10240)) none =
      .ok ⟨.default, true, 0, none, []⟩ := by
  decide

/-- C6 (amended): for every non-HEAD request whose Range header contains
two or more comma-separated specifiers, or a specifier whose start exceeds
its end, `Do` returns an error to the caller; and for every request (HEAD
included) with such a header, no chunk fetch is ever dispatched for the
request body (any successful response carries an empty chunk plan). -/
theorem do_invalid_ranges_rejected (c : Option Client) (hreq : HTTPReq) (cs w : Int)
    (probe : ProbeOutcome) (ht : Option Nat)
    (hbad : 2 ≤ (specsOf hreq.rangeHeader).length ∨ hasBackwardSpec hreq.rangeHeader) :
    (hreq.isHead = false →
      ∃ e, doRanger c (some ⟨some hreq, cs, w⟩) probe ht = .error e) ∧
    (∀ resp, doRanger c (some ⟨some hreq, cs, w⟩) probe ht = .ok resp →
      resp.chunks = []) := by
  have hparse : ∀ total, ∃ e, parseRange hreq.rangeHeader total = .error e := by
    intro total
    cases hh : hreq.rangeHeader with
    | unset => rw [hh] at hbad; simp [specsOf, hasBackwardSpec] at hbad
    | specs l =>
      rw [hh] at hbad
      cases l with
      | nil => simp [specsOf, hasBackwardSpec] at hbad
      | cons s rest =>
        cases rest with
        | nil =>
          simp [specsOf, hasBackwardSpec] at hbad
          obtain ⟨e, he, hlt⟩ := hbad
          refine ⟨.invalidRange, ?_⟩
          simp only [parseRange_single, he]
          rw [if_pos (by omega : min e (total - 1) < s.specStart)]
        | cons s2 rest2 => exact ⟨.multiRange, rfl⟩
  have herr : hreq.isHead = false →
      ∃ e, doRanger c (some ⟨some hreq, cs, w⟩) probe ht = .error e := by
    intro hhead
    cases probe with
    | fail e => exact ⟨.transport e, by simp [doRanger, hhead]⟩
    | ok ar clh =>
      by_cases har : ar = "bytes"
      · cases clh with
        | none => exact ⟨.badContentLength, by simp [doRanger, hhead, har]⟩
        | some total =>
          obtain ⟨e, hpe⟩ := hparse total
          exact ⟨.rangeParse e, by simp [doRanger, hhead, har, hpe]⟩
      · exact ⟨.rangeUnsupported, by simp [doRanger, hhead, har]⟩
  refine ⟨herr, ?_⟩
  intro resp hok
  cases hh : hreq.isHead with
  | false =>
    obtain ⟨e, he⟩ := herr hh
    rw [he] at hok
    simp at hok
  | true =>
    cases ht with
    | some e => simp [doRanger, hh] at hok
    | none =>
      simp [doRanger, hh] at hok
      subst hok
      rfl

/-- Closed witness for `do_invalid_ranges_rejected`: a non-HEAD request
with two range specifiers is rejected with an error. -/
theorem do_invalid_ranges_rejected_witness :
    ∃ e, doRanger none
        (some ⟨some ⟨false, .specs [⟨100, some 200⟩, ⟨300, some 400⟩]⟩, 1024, 100⟩)
        (.ok "bytes" (some 10240)) none = .error e :=
  (do_invalid_ranges_rejected none ⟨false, .specs [⟨100, some 200⟩, ⟨300, some 400⟩]⟩
    1024 100 (.ok "bytes" (some 10240)) none (Or.inl (by decide))).1 rfl

/-- Closed witness for `do_nil_safety`: nil request and nil embedded
request both yield the nil-request error for a concrete probe, and the
success path with a nil client records the default client. -/
theorem do_nil_safety_witness :
    doRanger (some (.custom 3)) none (.fail 0) none = .error .nilRequest ∧
    doRanger (some (.custom 3)) (some ⟨none, 1024, 100⟩) (.fail 0) none =
      .error .nilRequest ∧
    (⟨.default, false, 10, none, fixedRanges (Int.toNat 1024) 10⟩ : DoResponse).client =
      .default :=
  ⟨do_nil_safety.1 (some (.custom 3)) (.fail 0) none,
   do_nil_safety.2.1 (some (.custom 3)) 1024 100 (.fail 0) none,
   do_nil_safety.2.2 ⟨some ⟨false, .unset⟩, 1024, 100⟩ (.ok "bytes" (some 10)) none
     ⟨.default, false, 10, none, fixedRanges (Int.toNat 1024) 10⟩ (by decide)⟩

end Ranger
